import Mathlib

/-!
Verification of the shechill-analysis pipeline.

The definitions below are shallow embeddings of the two analysis scripts:

* `src/analysis/visualization_reports.py` — the weekday trimmer inside
  `create_prophet_forecast`, its guard conditions, and the plot filename
  sanitizer in `create_grid_plots`;
* `src/analysis/quantity_analysis.py` — the item-name normalizer
  `clean_item_names` and the aggregation/pivot pipeline
  `create_quantity_pivot`.

Quantities are modelled as `Int` (the source parses them as numbers and only
sums and compares them to zero), calendar dates as explicit
year/month/day records, and the opaque Prophet model fit as a parameter
returning `Option`.
-/

namespace Shechill

/-! ## Weekday trimmer

Embedded from `create_prophet_forecast` (visualization_reports.py, lines
82-99): a single left-to-right scan counting consecutive zeros; each time a
non-zero value follows a run of at least 4 zeros, the trim index is moved to
the position of that non-zero value.
-/

/-- The scan loop of `create_prophet_forecast`: `i` is the current position,
`cz` the current count of consecutive zeros, `t` the trim index recorded so
far. -/
def trimAux : List Int → Nat → Nat → Nat → Nat
  | [], _, _, t => t
  | v :: vs, i, cz, t =>
    if v = 0 then trimAux vs (i + 1) (cz + 1) t
    else trimAux vs (i + 1) 0 (if 4 ≤ cz then i else t)

/-- `trim_idx` as computed by the source: scan from position 0 with zero
counters. -/
def trimIdx (values : List Int) : Nat := trimAux values 0 0 0

/-- `trimmed_values = values[trim_idx:]`. -/
def trimmedSeries (values : List Int) : List Int := values.drop (trimIdx values)

/-! ### Specification-side definitions (the claim's words)

The claims describe the trim index as the position of the last non-zero
value immediately preceded by a run of at least 4 consecutive zeros.
-/

/-- Length of the maximal run of zeros at the end of a list. -/
def trailZeros (l : List Int) : Nat := (l.reverse.takeWhile (fun v => v == 0)).length

/-- Number of consecutive zeros immediately before position `k` of `l`, in a
context where `cz` consecutive zeros immediately precede position 0. -/
def precZeros (cz : Nat) (l : List Int) (k : Nat) : Nat :=
  let p := l.take k
  let t := trailZeros p
  if t = p.length then cz + t else t

/-- Position `k` holds a non-zero value immediately preceded by a run of at
least 4 consecutive zeros (with `cz` zeros preceding position 0). -/
def qualifies (cz : Nat) (l : List Int) (k : Nat) : Bool :=
  (l.getD k 0 != 0) && decide (4 ≤ precZeros cz l k)

/-- The last qualifying position of `l`, if any. -/
def lastQualifying (cz : Nat) (l : List Int) : Option Nat :=
  ((List.range l.length).filter (qualifies cz l)).getLast?

/-- Spec-side trim start, following the claim: the position of the last
non-zero value immediately preceded by a run of 4 or more consecutive
zeros, and 0 when there is no such position. -/
def specTrimStart (l : List Int) : Nat := (lastQualifying 0 l).getD 0

/-- Recursive companion of `lastQualifying`, used to relate the scan loop to
the specification. -/
def lastQual (cz : Nat) : List Int → Option Nat
  | [] => none
  | v :: vs =>
    if v = 0 then (lastQual (cz + 1) vs).map (· + 1)
    else
      match lastQual 0 vs with
      | some k => some (k + 1)
      | none => if 4 ≤ cz then some 0 else none

/-! ### Basic lemmas about trailing zeros -/

theorem takeWhile_length_append (p : α → Bool) (xs ys : List α) :
    ((xs ++ ys).takeWhile p).length =
      if (xs.takeWhile p).length = xs.length then xs.length + (ys.takeWhile p).length
      else (xs.takeWhile p).length := by
  rw [List.takeWhile_append]
  split_ifs <;> simp

theorem trailZeros_le_length (l : List Int) : trailZeros l ≤ l.length := by
  have h := (List.takeWhile_sublist (l := l.reverse) (fun v => v == 0)).length_le
  simpa [trailZeros] using h

theorem trailZeros_cons (v : Int) (p : List Int) :
    trailZeros (v :: p) =
      if trailZeros p = p.length then (if v = 0 then p.length + 1 else p.length)
      else trailZeros p := by
  have h := takeWhile_length_append (fun w => w == 0) p.reverse [v]
  simp only [trailZeros, List.reverse_cons, h, List.length_reverse]
  by_cases hv : v = 0
  · have hb : (v == 0) = true := by simp [hv]
    simp [List.takeWhile_cons, hb, hv]
  · have hb : (v == 0) = false := by simp [hv]
    simp [List.takeWhile_cons, hb, hv]

theorem trailZeros_append_ge (a b : List Int) : trailZeros b ≤ trailZeros (a ++ b) := by
  have h := takeWhile_length_append (fun w => w == 0) b.reverse a.reverse
  have hle := trailZeros_le_length b
  simp only [trailZeros, List.reverse_append, List.length_reverse] at *
  rw [h]
  split_ifs with h1 <;> omega

/-! ### The zero-boundary shift lemmas -/

theorem precZeros_zero (cz : Nat) (l : List Int) : precZeros cz l 0 = cz := by
  simp [precZeros, trailZeros]

theorem precZeros_cz_zero (l : List Int) (k : Nat) :
    precZeros 0 l k = trailZeros (l.take k) := by
  simp only [precZeros]
  split_ifs <;> omega

theorem precZeros_succ (cz : Nat) (v : Int) (vs : List Int) (k : Nat) (hk : k ≤ vs.length) :
    precZeros cz (v :: vs) (k + 1) = precZeros (if v = 0 then cz + 1 else 0) vs k := by
  have hlen : (vs.take k).length = k := List.length_take_of_le hk
  simp only [precZeros, List.take_succ_cons, trailZeros_cons, List.length_cons, hlen]
  have hle := trailZeros_le_length (vs.take k)
  rw [hlen] at hle
  by_cases hv : v = 0 <;> simp only [hv, if_true, if_false] <;> split_ifs <;> omega

theorem qualifies_zero (cz : Nat) (v : Int) (vs : List Int) :
    qualifies cz (v :: vs) 0 = ((v != 0) && decide (4 ≤ cz)) := by
  simp [qualifies, precZeros_zero]

theorem qualifies_succ (cz : Nat) (v : Int) (vs : List Int) (k : Nat) (hk : k ≤ vs.length) :
    qualifies cz (v :: vs) (k + 1) = qualifies (if v = 0 then cz + 1 else 0) vs k := by
  simp [qualifies, precZeros_succ cz v vs k hk]

/-! ### Relating the scan loop to the positional specification -/

theorem getLast?_cons_or (a : α) (l : List α) :
    (a :: l).getLast? = some (l.getLast?.getD a) := by
  induction l generalizing a with
  | nil => rfl
  | cons b bs ih =>
    rw [List.getLast?_cons_cons, ih b]
    simp

theorem lastQual_eq_lastQualifying (l : List Int) :
    ∀ cz, lastQual cz l = lastQualifying cz l := by
  induction l with
  | nil => intro cz; rfl
  | cons v vs ih =>
    intro cz
    have hrange : List.range (v :: vs).length = 0 :: (List.range vs.length).map Nat.succ := by
      rw [List.length_cons, List.range_succ_eq_map]
    unfold lastQualifying
    rw [hrange, List.filter_cons]
    have hfm : (((List.range vs.length).map Nat.succ).filter (qualifies cz (v :: vs)))
        = ((List.range vs.length).filter (qualifies (if v = 0 then cz + 1 else 0) vs)).map
            Nat.succ := by
      rw [List.filter_map]
      congr 1
      apply List.filter_congr
      intro k hk
      have hk' : k ≤ vs.length := le_of_lt (List.mem_range.mp hk)
      simpa using qualifies_succ cz v vs k hk'
    rw [hfm, qualifies_zero]
    by_cases hv : v = 0
    · have hb : ((v != 0) && decide (4 ≤ cz)) = false := by simp [hv]
      rw [lastQual, if_pos hv, ih (cz + 1), lastQualifying, hb]
      simp only [Bool.false_eq_true, if_false, List.getLast?_map, if_pos hv]
    · have hx : (((List.range vs.length).filter (qualifies 0 vs)).map Nat.succ).getLast?
          = (lastQual 0 vs).map Nat.succ := by
        rw [List.getLast?_map, ih 0, lastQualifying]
      rw [lastQual, if_neg hv]
      simp only [if_neg hv]
      by_cases hcz : 4 ≤ cz
      · have hb : ((v != 0) && decide (4 ≤ cz)) = true := by simp [hv, hcz]
        rw [hb]
        simp only [eq_self_iff_true, if_true]
        rw [getLast?_cons_or, hx]
        cases h : lastQual 0 vs <;> simp [h, hcz]
      · have hb : ((v != 0) && decide (4 ≤ cz)) = false := by simp [hv, hcz]
        rw [hb]
        simp only [Bool.false_eq_true, if_false]
        rw [hx]
        cases h : lastQual 0 vs <;> simp [h, hcz]

theorem trimAux_eq (vs : List Int) : ∀ i cz t,
    trimAux vs i cz t = ((lastQual cz vs).map (fun k => i + k)).getD t := by
  induction vs with
  | nil => intro i cz t; rfl
  | cons v vs ih =>
    intro i cz t
    by_cases hv : v = 0
    · rw [trimAux, if_pos hv, ih, lastQual, if_pos hv]
      cases h : lastQual (cz + 1) vs with
      | some k => simp [h]; omega
      | none => simp [h]
    · rw [trimAux, if_neg hv, ih, lastQual, if_neg hv]
      cases h : lastQual 0 vs with
      | some k => simp [h]; omega
      | none =>
        by_cases hcz : 4 ≤ cz
        · simp [h, if_pos hcz]
        · simp [h, if_neg hcz]

theorem trimIdx_eq_lastQual (l : List Int) : trimIdx l = (lastQual 0 l).getD 0 := by
  rw [trimIdx, trimAux_eq]
  cases h : lastQual 0 l <;> simp [h]

theorem trimIdx_eq_spec (l : List Int) : trimIdx l = specTrimStart l := by
  rw [trimIdx_eq_lastQual, specTrimStart, lastQual_eq_lastQualifying]

/-- C1: the Weekday Trimmer returns trim-start equal to the position of the
last non-zero value immediately preceded by a run of 4 or more consecutive
zeros, or 0 when no such run precedes any non-zero value; the output series
is exactly the suffix starting at trim-start.  On
`[0,0,0,0,0,3,4,0,0,0,0,2,5,6]` the trim-start is 11 and the trimmed series
is `[2,5,6]`. -/
theorem claim_C1_trimmer_matches_spec :
    (∀ values : List Int,
      trimIdx values = specTrimStart values ∧
      trimmedSeries values = values.drop (specTrimStart values)) ∧
    trimIdx [0, 0, 0, 0, 0, 3, 4, 0, 0, 0, 0, 2, 5, 6] = 11 ∧
    trimmedSeries [0, 0, 0, 0, 0, 3, 4, 0, 0, 0, 0, 2, 5, 6] = [2, 5, 6] := by
  refine ⟨fun values => ⟨trimIdx_eq_spec values, ?_⟩, by decide, by decide⟩
  rw [trimmedSeries, trimIdx_eq_spec]

/-! ### Maximality of the recorded trim index -/

theorem filter_range_getLast?_none (p : Nat → Bool) (n : Nat)
    (h : ((List.range n).filter p).getLast? = none) : ∀ j, j < n → p j = false := by
  induction n with
  | zero => intro j hj; omega
  | succ n ih =>
    rw [List.range_succ, List.filter_append] at h
    by_cases hp : p n
    · rw [List.filter_cons, if_pos hp] at h
      simp only [List.filter_nil] at h
      rw [List.getLast?_concat] at h
      exact absurd h (by simp)
    · rw [List.filter_cons, if_neg hp] at h
      simp only [List.filter_nil, List.append_nil] at h
      intro j hj
      rcases Nat.lt_succ_iff_lt_or_eq.mp hj with h1 | rfl
      · exact ih h j h1
      · simpa using hp

theorem filter_range_getLast?_some (p : Nat → Bool) (n k : Nat)
    (h : ((List.range n).filter p).getLast? = some k) :
    p k = true ∧ k < n ∧ ∀ j, k < j → j < n → p j = false := by
  induction n with
  | zero => simp [List.range_zero] at h
  | succ n ih =>
    rw [List.range_succ, List.filter_append] at h
    by_cases hp : p n
    · rw [List.filter_cons, if_pos hp] at h
      simp only [List.filter_nil] at h
      rw [List.getLast?_concat] at h
      obtain rfl : n = k := by injection h
      exact ⟨hp, Nat.lt_succ_self _, fun j h1 h2 => by omega⟩
    · rw [List.filter_cons, if_neg hp] at h
      simp only [List.filter_nil, List.append_nil] at h
      obtain ⟨h1, h2, h3⟩ := ih h
      refine ⟨h1, by omega, fun j hj1 hj2 => ?_⟩
      rcases Nat.lt_succ_iff_lt_or_eq.mp hj2 with h4 | rfl
      · exact h3 j hj1 h4
      · simpa using hp

theorem qualifies_true_iff (cz : Nat) (l : List Int) (k : Nat) :
    qualifies cz l k = true ↔ l.getD k 0 ≠ 0 ∧ 4 ≤ precZeros cz l k := by
  simp [qualifies, bne_iff_ne]

theorem trimIdx_le_length (l : List Int) : trimIdx l ≤ l.length := by
  rw [trimIdx_eq_spec, specTrimStart, lastQualifying]
  cases h : ((List.range l.length).filter (qualifies 0 l)).getLast? with
  | none => simp
  | some k =>
    obtain ⟨_, hk, _⟩ := filter_range_getLast?_some _ _ _ h
    simpa using le_of_lt hk

theorem trimIdx_pos_nonzero (l : List Int) (h : 0 < trimIdx l) :
    l.getD (trimIdx l) 0 ≠ 0 := by
  have he := trimIdx_eq_spec l
  rw [specTrimStart, lastQualifying] at he
  cases hq : ((List.range l.length).filter (qualifies 0 l)).getLast? with
  | none => rw [hq] at he; simp at he; omega
  | some k =>
    rw [hq] at he
    simp only [Option.getD_some] at he
    obtain ⟨h1, _, _⟩ := filter_range_getLast?_some _ _ _ hq
    rw [he]
    exact ((qualifies_true_iff _ _ _).mp h1).1

theorem getD_drop (l : List Int) (k j : Nat) :
    (l.drop k).getD j 0 = l.getD (k + j) 0 := by
  simp [List.getD_eq_getElem?_getD, List.getElem?_drop]

theorem lastQualifying_drop_trimIdx (l : List Int) :
    lastQualifying 0 (l.drop (trimIdx l)) = none := by
  cases hq : lastQualifying 0 (l.drop (trimIdx l)) with
  | none => rfl
  | some j =>
    exfalso
    rw [lastQualifying] at hq
    obtain ⟨hj1, hj2, _⟩ := filter_range_getLast?_some _ _ _ hq
    obtain ⟨hnz, hpz⟩ := (qualifies_true_iff _ _ _).mp hj1
    rw [precZeros_cz_zero] at hpz
    have hnz' : l.getD (trimIdx l + j) 0 ≠ 0 := by rwa [getD_drop] at hnz
    have hpz' : 4 ≤ precZeros 0 l (trimIdx l + j) := by
      rw [precZeros_cz_zero, List.take_add]
      exact le_trans hpz (trailZeros_append_ge _ _)
    have hq' : qualifies 0 l (trimIdx l + j) = true :=
      (qualifies_true_iff _ _ _).mpr ⟨hnz', hpz'⟩
    have hj4 : 4 ≤ j := by
      have h1 := trailZeros_le_length ((l.drop (trimIdx l)).take j)
      have h2 := List.length_take_le j (l.drop (trimIdx l))
      omega
    have hkj_lt : trimIdx l + j < l.length := by
      rw [List.length_drop] at hj2
      have := trimIdx_le_length l
      omega
    have he := trimIdx_eq_spec l
    rw [specTrimStart, lastQualifying] at he
    cases hl : ((List.range l.length).filter (qualifies 0 l)).getLast? with
    | none =>
      have hfalse := filter_range_getLast?_none _ _ hl (trimIdx l + j) hkj_lt
      rw [hq'] at hfalse
      exact absurd hfalse (by simp)
    | some m =>
      rw [hl] at he
      simp only [Option.getD_some] at he
      obtain ⟨_, _, hmax⟩ := filter_range_getLast?_some _ _ _ hl
      have hfalse := hmax (trimIdx l + j) (by omega) hkj_lt
      rw [hq'] at hfalse
      exact absurd hfalse (by simp)

/-- C6: the Weekday Trimmer is idempotent: applying the trimmer to a series
it has already produced returns that series unchanged, with trim-start 0. -/
theorem claim_C6_trimmer_idempotent :
    ∀ values : List Int,
      trimIdx (trimmedSeries values) = 0 ∧
      trimmedSeries (trimmedSeries values) = trimmedSeries values := by
  intro l
  have h0 : trimIdx (trimmedSeries l) = 0 := by
    rw [trimIdx_eq_spec, specTrimStart, trimmedSeries, lastQualifying_drop_trimIdx]
    rfl
  exact ⟨h0, by rw [trimmedSeries, h0, List.drop_zero]⟩

/-! ### Trailing zeros never move the cut point -/

theorem lastQual_replicate_zero (n : Nat) :
    ∀ cz, lastQual cz (List.replicate n 0) = none := by
  induction n with
  | zero => intro cz; rfl
  | succ n ih =>
    intro cz
    rw [List.replicate_succ, lastQual, if_pos rfl, ih]
    rfl

theorem lastQual_append_replicate (l : List Int) (n : Nat) :
    ∀ cz, lastQual cz (l ++ List.replicate n 0) = lastQual cz l := by
  induction l with
  | nil =>
    intro cz
    rw [List.nil_append, lastQual_replicate_zero]
    rfl
  | cons v vs ih =>
    intro cz
    rw [List.cons_append]
    by_cases hv : v = 0
    · rw [lastQual, if_pos hv, ih, lastQual, if_pos hv]
    · rw [lastQual, if_neg hv, ih, lastQual, if_neg hv]

/-- C9: when the trim-start is positive, the value at the trim-start (the
first element of the trimmed output) is non-zero; and a run of zeros at the
end of the series never moves the cut point, so trailing zeros are retained
in the output. -/
theorem claim_C9_cut_nonzero_trailing_zeros_kept :
    ∀ values : List Int,
      (0 < trimIdx values → values.getD (trimIdx values) 0 ≠ 0) ∧
      ∀ n : Nat,
        trimIdx (values ++ List.replicate n 0) = trimIdx values ∧
        trimmedSeries (values ++ List.replicate n 0)
          = trimmedSeries values ++ List.replicate n 0 := by
  intro l
  refine ⟨trimIdx_pos_nonzero l, fun n => ?_⟩
  have ht : trimIdx (l ++ List.replicate n 0) = trimIdx l := by
    rw [trimIdx_eq_lastQual, trimIdx_eq_lastQual, lastQual_append_replicate]
  refine ⟨ht, ?_⟩
  rw [trimmedSeries, trimmedSeries, ht, List.drop_append_of_le_length (trimIdx_le_length l)]

/-- Witness for C9: the hypotheses of C9 hold at the concrete series
`[0,0,0,0,7]`. -/
theorem claim_C9_witness :
    ([0, 0, 0, 0, 7] : List Int).getD (trimIdx [0, 0, 0, 0, 7]) 0 ≠ 0 ∧
    trimIdx ([0, 0, 0, 0, 7] ++ List.replicate 3 0) = trimIdx [0, 0, 0, 0, 7] :=
  ⟨(claim_C9_cut_nonzero_trailing_zeros_kept [0, 0, 0, 0, 7]).1 (by decide),
   ((claim_C9_cut_nonzero_trailing_zeros_kept [0, 0, 0, 0, 7]).2 3).1⟩

/-! ## Forecast guards

Embedded from `create_prophet_forecast` (visualization_reports.py, lines
76-133).  The Prophet model fit is an opaque external capability, taken
here as a parameter that may fail (`none`).  Date strings of the form
"M/D" are parsed against a fixed non-leap reference year, mirroring
`pd.to_datetime(..., format='%m/%d', errors='coerce')` followed by
`dropna`, which discards unparseable entries; any remaining failure path
returns `None` ("forecast unavailable").
-/

def daysInMonthRef : List Nat := [31, 28, 31, 30, 31, 30, 31, 31, 30, 31, 30, 31]

/-- Parse an "M/D" date label, keeping it only when it denotes a valid
month/day in the non-leap reference year used by the first parse. -/
def parseMonthDay (s : String) : Option (Nat × Nat) :=
  match s.splitOn "/" with
  | [ms, ds] =>
    match ms.toNat?, ds.toNat? with
    | some m, some d =>
      if 1 ≤ m ∧ m ≤ 12 ∧ 1 ≤ d ∧ d ≤ daysInMonthRef.getD (m - 1) 0 then some (m, d)
      else none
    | _, _ => none
  | _ => none

/-- The observations surviving the trim and the date parse: trimmed
(date, value) pairs whose date label parses. -/
def parsedObservations (dates : List String) (values : List Int) :
    List ((Nat × Nat) × Int) :=
  ((dates.drop (trimIdx values)).zip (values.drop (trimIdx values))).filterMap
    (fun p => (parseMonthDay p.1).map (fun d => (d, p.2)))

/-- `create_prophet_forecast`: raw-length and zero-sum guards, trim,
post-trim length guard, date parse, post-parse length guard, then the
opaque fit; every failure yields `none`. -/
def createProphetForecast {α : Type} (fit : List ((Nat × Nat) × Int) → Option α)
    (dates : List String) (values : List Int) : Option (α × Nat) :=
  if values.length < 10 ∨ values.sum = 0 then none
  else
    if (values.drop (trimIdx values)).length < 5 then none
    else
      if (parsedObservations dates values).length < 5 then none
      else (fit (parsedObservations dates values)).map (fun f => (f, trimIdx values))

/-- C3: the forecast step returns "unavailable" (`none`) exactly when the
raw series has fewer than 10 observations or a zero sum, or fewer than 5
observations remain after trimming or after discarding unparseable dates,
or the forecasting library fails internally; in the guard cases no fit is
attempted (the result is `none` for every fit function); in particular a
series of length 8 with all non-zero values yields "unavailable". -/
theorem claim_C3_forecast_unavailable_guards :
    ∀ {α : Type} (fit : List ((Nat × Nat) × Int) → Option α)
      (dates : List String) (values : List Int),
      (createProphetForecast fit dates values = none ↔
        values.length < 10 ∨ values.sum = 0 ∨
        (values.drop (trimIdx values)).length < 5 ∨
        (parsedObservations dates values).length < 5 ∨
        fit (parsedObservations dates values) = none) ∧
      ((values.length < 10 ∨ values.sum = 0 ∨
          (values.drop (trimIdx values)).length < 5 ∨
          (parsedObservations dates values).length < 5) →
        ∀ {β : Type} (fit2 : List ((Nat × Nat) × Int) → Option β),
          createProphetForecast fit2 dates values = none) ∧
      (values.length = 8 → (∀ v ∈ values, v ≠ 0) →
        createProphetForecast fit dates values = none) := by
  intro α fit dates values
  refine ⟨?_, ?_, ?_⟩
  · unfold createProphetForecast
    split_ifs with h1 h2 h3
    · exact iff_of_true rfl (by tauto)
    · exact iff_of_true rfl (by tauto)
    · exact iff_of_true rfl (by tauto)
    · rw [not_or] at h1
      cases hf : fit (parsedObservations dates values) with
      | some f => simp only [hf, Option.map_some']; constructor <;> intro hc <;> tauto
      | none => simp only [hf, Option.map_none']; constructor <;> intro <;> tauto
  · intro hor β fit2
    unfold createProphetForecast
    split_ifs with h1 h2 h3
    · rfl
    · rfl
    · rfl
    · exfalso; rw [not_or] at h1; tauto
  · intro h8 _
    unfold createProphetForecast
    rw [if_pos (Or.inl (by omega))]

/-- Witness for C3: the hypotheses of C3 hold at a concrete all-non-zero
series of length 8, which yields no forecast. -/
theorem claim_C3_witness :
    createProphetForecast (fun _ => some 0) [] [1, 1, 1, 1, 1, 1, 1, 1] = none :=
  (claim_C3_forecast_unavailable_guards (fun _ => some 0)
      [] [1, 1, 1, 1, 1, 1, 1, 1]).2.2 rfl (by decide)

/-! ## Calendar dates and weekdays

`load_transaction_data` converts the Date column to timestamps and derives
`Day_of_Week` via `dt.day_name()`.  Dates are embedded as explicit
year/month/day records and the day of week is computed from the calendar
date by the standard Zeller-style day count (anchored below on known
dates).
-/

structure Date where
  year : Nat
  month : Nat
  day : Nat
deriving DecidableEq

/-- Day count of a calendar date, used only modulo 7 to obtain the day of
the week. -/
def dateIndex (d : Date) : Nat :=
  let y := if d.month ≤ 2 then d.year - 1 else d.year
  let m := if d.month ≤ 2 then d.month + 12 else d.month
  365 * y + y / 4 + y / 400 + (153 * (m + 1)) / 5 + d.day - y / 100

def weekdayNames : List String :=
  ["Monday", "Tuesday", "Wednesday", "Thursday", "Friday", "Saturday", "Sunday"]

/-- `pandas.Timestamp.day_name()` for the embedded date. -/
def dayNameOf (d : Date) : String :=
  weekdayNames.getD ((dateIndex d + 5) % 7) ""

/-- Anchor check for the weekday formula: January 14, 2025 (the excluded
bad-data date) is a Tuesday, February 29, 2024 a Thursday, January 1, 2024
a Monday. -/
theorem dayNameOf_anchors :
    dayNameOf ⟨2025, 1, 14⟩ = "Tuesday" ∧
    dayNameOf ⟨2024, 2, 29⟩ = "Thursday" ∧
    dayNameOf ⟨2024, 1, 1⟩ = "Monday" := by
  refine ⟨by decide, by decide, by decide⟩

/-- One row of `transaction-summary.csv` after `load_transaction_data`
(the Net Sales column is cleaned there but never used by the pipeline
under verification). -/
structure Transaction where
  date : Date
  item : String
  category : String
  qty : Int
deriving DecidableEq

/-! ## Name Normalizer

Embedded from `clean_item_names` (quantity_analysis.py, lines 41-96): a
fixed table mapping each canonical name to its known variants, reversed
into a variant-to-canonical lookup; `df['Item'].map(...).fillna(...)` is
case-sensitive exact lookup with pass-through for unmatched names.
-/

def itemMappings : List (String × List String) :=
  [("Berry Tart", ["Berry Tart", "Berry Tart "]),
   ("Chocolate Tart", ["Chocolate Tart", "Chocolate Tart "]),
   ("Bread Pudding Croissant", ["Bread Pudding Croissant"]),
   ("Chocolate Banana Bread (Gluten Free)", ["Chocolate Banana Bread (Gluten Free)"]),
   ("Crispy Egg Tart", ["Crispy Egg Tart", "Egg Tart"]),
   ("Dubai Chocolate Croissant",
     ["Dubai Chocolate Croissant", "Dubaï Chocolate Croissant",
      "Dubai Chocolate Croissant (Fri/Sat/Sun)"]),
   ("Mini Black Sesame Croissant",
     ["Mini Black Sesame Croissant", "Mini Black SésameCroissant",
      "Mini Black Sesame Croissant (Fri/Sat/Sun)"]),
   ("Croque Monsieur", ["CroqueMonsieur", "Croque Monsieur"]),
   ("Avocado Egg Croissant Sandwich",
     ["Avocado Egg Croissant Sandwich", "Avocado Egg Croissant Sandwich (Fri/Sat/Sun)",
      "Avocado Egg Croissant Sandwich - Weekend Only"]),
   ("Black Sesame Croissant",
     ["Black Sesame Croissant", "Black Sesame Croissant (Fri/Sat/Sun)",
      "Black Sesame Croissant Toast - Weekend Only"]),
   ("Brie Prosciutto Croissant Sandwich",
     ["Brie Prosciutto Croissant Sandwich", "Brie Prosciutto Croissant Sandwich (Fri/Sat/Sun)",
      "Brie Prosciutto Croissant Sandwich - Weekend Only"]),
   ("Red Bow Tie Croissant",
     ["Red Bow Tie Croissant", "Red Bow Tie Croissant (Fri/Sat/Sun)",
      "Red Bow Tie Croissant - Weekend Only"]),
   ("Lemon Tart (Large)", ["Lemon Tart (L)", "Lemon Tart (Large)"]),
   ("Raspberry Tart (Small)", ["Raspberry Tart (Small)", "Raspberry Tart(S)"])]

/-- The variant-to-canonical reverse mapping built by the source's nested
loop (dict insertion; all variant keys are distinct, checked below). -/
def reverseMapping : List (String × String) :=
  itemMappings.foldl (fun acc p => acc ++ p.2.map (fun s => (s, p.1))) []

/-- The reverse mapping has distinct keys, so the association list agrees
with the Python dict it models. -/
theorem reverseMapping_keys_nodup : (reverseMapping.map Prod.fst).Nodup := by decide

/-- `df['Item'].map(reverse_mapping).fillna(df['Item'])`. -/
def normalizeItem (s : String) : String := (List.lookup s reverseMapping).getD s

/-! ## Transaction Aggregator and Pivot Builder

Embedded from `create_quantity_pivot` (quantity_analysis.py, lines
98-183): category allow-list filter, Monday exclusion, name
normalization, seasonal/special removal (case-insensitive substring
match), groupby-sum on (Date, Item), pivot with explicit zero fill,
exclusion of the 1/14 column, and weekday-then-date column ordering.
-/

def targetCategories : List String := ["Croissant", "Bread", "Pastries", "Drink"]

def matchAt : List Char → List Char → Bool
  | [], _ => true
  | _ :: _, [] => false
  | a :: as, b :: bs => a == b && matchAt as bs

def occursIn (needle : List Char) : List Char → Bool
  | [] => matchAt needle []
  | b :: bs => matchAt needle (b :: bs) || occursIn needle bs

def lowerChars (s : String) : List Char := s.data.map Char.toLower

/-- Case-insensitive substring containment, as in
`str.contains(..., case=False)`. -/
def containsCI (needle s : String) : Bool := occursIn (lowerChars needle) (lowerChars s)

/-- The seasonal/special regex `'4th of July|4th Of July|Easter Special'`
with `case=False`. -/
def isSeasonalItem (s : String) : Bool :=
  containsCI "4th of July" s || containsCI "4th Of July" s || containsCI "Easter Special" s

/-- Normalization applied to a transaction row (`clean_item_names` touches
only the Item column). -/
def normalizeTx (t : Transaction) : Transaction := { t with item := normalizeItem t.item }

/-- The four documented filters in source order: category allow-list,
Monday exclusion, name normalization, seasonal/special removal. -/
def filteredTransactions (ts : List Transaction) : List Transaction :=
  ((((ts.filter (fun t => targetCategories.contains t.category)).filter
      (fun t => dayNameOf t.date != "Monday")).map normalizeTx).filter
      (fun t => !isSeasonalItem t.item))

/-- Distinct (Date, Item) keys of the groupby. -/
def aggKeys (ts : List Transaction) : List (Date × String) :=
  ((filteredTransactions ts).map (fun t => (t.date, t.item))).dedup

/-- Sum of quantities of the filtered transactions sharing a key. -/
def aggValue (ts : List Transaction) (k : Date × String) : Int :=
  (((filteredTransactions ts).filter (fun t => (t.date, t.item) == k)).map
      Transaction.qty).sum

/-- The Daily Aggregate: `groupby(['Date','Item']).agg({'Qty': 'sum'})`. -/
def dailyAgg (ts : List Transaction) : List ((Date × String) × Int) :=
  (aggKeys ts).map (fun k => (k, aggValue ts k))

/-- Rows of the Quantity Matrix: the distinct canonical items of the
aggregate. -/
def pivotItems (ts : List Transaction) : List String :=
  ((dailyAgg ts).map (fun e => e.1.2)).dedup

/-- The distinct dates of the aggregate (the pivot's date columns before
the 1/14 exclusion and reordering). -/
def aggDates (ts : List Transaction) : List Date :=
  ((dailyAgg ts).map (fun e => e.1.1)).dedup

/-- Date columns after dropping the hard-coded 1/14 bad-data date. -/
def keptDates (ts : List Transaction) : List Date :=
  (aggDates ts).filter (fun d => !(d.month == 1 && d.day == 14))

/-- `weekday_order` of the source; Monday is absent from the dict (the
source would raise a KeyError, but Monday dates are filtered out before
the pivot, so the default value is never reached on reachable inputs). -/
def weekdayOrderTable : List (String × Nat) :=
  [("Tuesday", 0), ("Wednesday", 1), ("Thursday", 2), ("Friday", 3),
   ("Saturday", 4), ("Sunday", 5)]

def weekdayOrder (w : String) : Nat := (List.lookup w weekdayOrderTable).getD 6

/-- The column sort key order: weekday group first, then calendar date
(timestamp order, i.e. lexicographic on year, month, day). -/
def colKeyLe (a b : Date) : Prop :=
  weekdayOrder (dayNameOf a) < weekdayOrder (dayNameOf b) ∨
    (weekdayOrder (dayNameOf a) = weekdayOrder (dayNameOf b) ∧
      (a.year < b.year ∨ (a.year = b.year ∧
        (a.month < b.month ∨ (a.month = b.month ∧ a.day ≤ b.day)))))

instance : DecidableRel colKeyLe := fun _a _b =>
  inferInstanceAs (Decidable (_ ∨ _ ∧ (_ ∨ _ ∧ (_ ∨ _ ∧ _))))

instance : IsTotal Date colKeyLe :=
  ⟨fun x y => by unfold colKeyLe; omega⟩

instance : IsTrans Date colKeyLe :=
  ⟨fun a b c hab hbc => by unfold colKeyLe at *; omega⟩

/-- The final ordered date columns of the Quantity Matrix. -/
def pivotDates (ts : List Transaction) : List Date :=
  List.insertionSort colKeyLe (keptDates ts)

/-- The `"{month}/{day} - {WeekdayName}"` column label. -/
def formatLabel (d : Date) : String :=
  Nat.repr d.month ++ "/" ++ Nat.repr d.day ++ " - " ++ dayNameOf d

/-- The formatted, reordered column headers of the saved matrix. -/
def pivotColumns (ts : List Transaction) : List String :=
  (pivotDates ts).map formatLabel

/-- A cell of the Quantity Matrix: the aggregate value for (item, date),
and the explicit fill value 0 when the combination is absent. -/
def pivotCell (ts : List Transaction) (item : String) (d : Date) : Int :=
  ((dailyAgg ts).lookup (d, item)).getD 0

/-! ### Association list lemmas -/

theorem lookup_mem {α β} [BEq α] [LawfulBEq α] {l : List (α × β)} {s : α} {t : β}
    (h : List.lookup s l = some t) : (s, t) ∈ l := by
  induction l with
  | nil => simp [List.lookup] at h
  | cons p ps ih =>
    obtain ⟨k, v⟩ := p
    rw [List.lookup] at h
    cases hk : (s == k) with
    | true =>
      simp only [hk] at h
      obtain rfl : v = t := by injection h
      obtain rfl : s = k := eq_of_beq hk
      exact List.mem_cons_self _ _
    | false =>
      simp only [hk] at h
      exact List.mem_cons_of_mem _ (ih h)

theorem lookup_eq_none_of_forall {α β} [BEq α] [LawfulBEq α] {l : List (α × β)} {s : α}
    (h : ∀ p ∈ l, p.1 ≠ s) : List.lookup s l = none := by
  induction l with
  | nil => rfl
  | cons p ps ih =>
    obtain ⟨k, v⟩ := p
    rw [List.lookup]
    have hk : (s == k) = false := by
      have hne := h (k, v) (List.mem_cons_self _ _)
      simp only [ne_eq] at hne
      simpa using fun he => hne he.symm
    simp only [hk]
    exact ih (fun q hq => h q (List.mem_cons_of_mem _ hq))

theorem lookup_map_keys {α β} [BEq α] [LawfulBEq α] (f : α → β) :
    ∀ (ks : List α) (k : α), k ∈ ks →
      List.lookup k (ks.map (fun x => (x, f x))) = some (f k) := by
  intro ks
  induction ks with
  | nil => intro k hk; simp at hk
  | cons x ks ih =>
    intro k hk
    rw [List.map_cons, List.lookup]
    by_cases hx : x = k
    · subst hx
      simp
    · have hb : (k == x) = false := by simpa using fun he => hx he.symm
      simp only [hb]
      refine ih k ?_
      rcases List.mem_cons.mp hk with h1 | h1
      · exact absurd h1.symm hx
      · exact h1

theorem lookup_map_keys_none {α β} [BEq α] [LawfulBEq α] (f : α → β) :
    ∀ (ks : List α) (k : α), k ∉ ks →
      List.lookup k (ks.map (fun x => (x, f x))) = none := by
  intro ks
  induction ks with
  | nil => intro k _; rfl
  | cons x ks ih =>
    intro k hk
    rw [List.map_cons, List.lookup]
    have hb : (k == x) = false := by
      have hne : x ≠ k := fun h => hk (h ▸ List.mem_cons_self _ _)
      simpa using fun he => hne he.symm
    simp only [hb]
    exact ih k (fun h => hk (List.mem_cons_of_mem _ h))

/-! ### C7 and C10: the Name Normalizer -/

/-- Two raw rows for the same date whose names are distinct variants of the
same canonical item. -/
def eggTartSample : List Transaction :=
  [⟨⟨2025, 1, 15⟩, "Egg Tart", "Pastries", 2⟩,
   ⟨⟨2025, 1, 15⟩, "Crispy Egg Tart", "Pastries", 3⟩]

/-- C7: the Name Normalizer maps raw names by case-sensitive exact match
against the variant lists of the fixed synonym table, names absent from
every variant list pass through unchanged, and in particular "Egg Tart"
and "Crispy Egg Tart" both normalize to "Crispy Egg Tart", so their
quantities for the same date are summed into one Daily Aggregate entry. -/
theorem claim_C7_name_normalizer :
    normalizeItem "Egg Tart" = "Crispy Egg Tart" ∧
    normalizeItem "Crispy Egg Tart" = "Crispy Egg Tart" ∧
    (∀ s t, List.lookup s reverseMapping = some t →
      ∃ q ∈ itemMappings, q.1 = t ∧ s ∈ q.2) ∧
    (∀ s, (∀ p ∈ itemMappings, s ∉ p.2) → normalizeItem s = s) ∧
    dailyAgg eggTartSample = [((⟨2025, 1, 15⟩, "Crispy Egg Tart"), 5)] := by
  refine ⟨by decide, by decide, ?_, ?_, by decide⟩
  · intro s t h
    have hall : ∀ p ∈ reverseMapping, ∃ q ∈ itemMappings, q.1 = p.2 ∧ p.1 ∈ q.2 := by decide
    exact hall (s, t) (lookup_mem h)
  · intro s hs
    have hnone : List.lookup s reverseMapping = none := by
      apply lookup_eq_none_of_forall
      intro p hp hps
      have hall : ∀ p ∈ reverseMapping, ∃ q ∈ itemMappings, p.1 ∈ q.2 := by decide
      obtain ⟨q, hq, hpq⟩ := hall p hp
      rw [hps] at hpq
      exact hs q hq hpq
    rw [normalizeItem, hnone]
    rfl

/-- Witness for C7: the pass-through case of C7 applied at a concrete
unmatched name. -/
theorem claim_C7_witness : normalizeItem "Plain Croissant" = "Plain Croissant" :=
  claim_C7_name_normalizer.2.2.2.1 "Plain Croissant" (by decide)

/-- C10: every canonical name of the synonym table is listed among its own
variants and normalizes to itself, and the Name Normalizer is idempotent
on every string. -/
theorem claim_C10_normalizer_idempotent :
    (∀ p ∈ itemMappings, p.1 ∈ p.2) ∧
    (∀ p ∈ itemMappings, normalizeItem p.1 = p.1) ∧
    (∀ x, normalizeItem (normalizeItem x) = normalizeItem x) := by
  refine ⟨by decide, by decide, ?_⟩
  intro x
  cases h : List.lookup x reverseMapping with
  | none =>
    have hx : normalizeItem x = x := by rw [normalizeItem, h]; rfl
    rw [hx]
    exact hx
  | some t =>
    have hx : normalizeItem x = t := by rw [normalizeItem, h]; rfl
    have hall : ∀ p ∈ reverseMapping, List.lookup p.2 reverseMapping = some p.2 := by decide
    have ht := hall (x, t) (lookup_mem h)
    have hxt : normalizeItem t = t := by rw [normalizeItem, ht]; rfl
    rw [hx]
    exact hxt

/-- Witness for C10: the self-mapping case of C10 applied at a concrete
table entry. -/
theorem claim_C10_witness : normalizeItem "Berry Tart" = "Berry Tart" :=
  claim_C10_normalizer_idempotent.2.1 ("Berry Tart", ["Berry Tart", "Berry Tart "])
    (by decide)

/-! ### Summation over groups (the groupby-sum invariant) -/

theorem sum_map_add (f g : α → Int) (l : List α) :
    (l.map (fun x => f x + g x)).sum = (l.map f).sum + (l.map g).sum := by
  induction l with
  | nil => simp
  | cons x xs ih => simp only [List.map_cons, List.sum_cons, ih]; ring

theorem sum_map_indicator {K : Type} [BEq K] [LawfulBEq K] (ks : List K) (a : K) (v : Int)
    (hnd : ks.Nodup) (ha : a ∈ ks) :
    (ks.map (fun k => if a == k then v else 0)).sum = v := by
  induction ks with
  | nil => simp at ha
  | cons k0 ks ih =>
    rcases List.mem_cons.mp ha with rfl | hmem
    · simp only [List.map_cons, List.sum_cons]
      have h1 : (if a == a then v else 0) = v := by simp
      have hnotin : a ∉ ks := (List.nodup_cons.mp hnd).1
      have hz : (ks.map (fun k => if a == k then v else 0)).sum = 0 := by
        apply List.sum_eq_zero
        intro x hx
        obtain ⟨k, hk, rfl⟩ := List.mem_map.mp hx
        have hne : (a == k) = false := by
          simp only [beq_eq_false_iff_ne, ne_eq]
          exact fun he => hnotin (he ▸ hk)
        simp [hne]
      rw [h1, hz]
      simp
    · have hne : (a == k0) = false := by
        simp only [beq_eq_false_iff_ne, ne_eq]
        rintro rfl
        exact (List.nodup_cons.mp hnd).1 hmem
      simp only [List.map_cons, List.sum_cons]
      rw [if_neg (by simp [hne])]
      rw [ih (List.nodup_cons.mp hnd).2 hmem]
      simp

theorem sum_over_groups {α K : Type} [BEq K] [LawfulBEq K] (key : α → K) (val : α → Int)
    (ks : List K) (hnd : ks.Nodup) :
    ∀ l : List α, (∀ a ∈ l, key a ∈ ks) →
      (ks.map (fun k => ((l.filter (fun a => key a == k)).map val).sum)).sum
        = (l.map val).sum := by
  intro l
  induction l with
  | nil =>
    intro _
    simp only [List.filter_nil, List.map_nil, List.sum_nil]
    apply List.sum_eq_zero
    intro x hx
    obtain ⟨k, _, rfl⟩ := List.mem_map.mp hx
    rfl
  | cons t l ih =>
    intro hmem
    have hkey : key t ∈ ks := hmem t (List.mem_cons_self _ _)
    have hstep : ∀ k ∈ ks, (((t :: l).filter (fun a => key a == k)).map val).sum
        = (if key t == k then val t else 0)
            + ((l.filter (fun a => key a == k)).map val).sum := by
      intro k _
      rw [List.filter_cons]
      by_cases hk : (key t == k) = true
      · rw [if_pos hk, if_pos hk]
        simp
      · rw [if_neg hk, if_neg hk]
        simp
    rw [List.map_congr_left hstep, sum_map_add,
      sum_map_indicator ks (key t) (val t) hnd hkey,
      ih (fun a ha => hmem a (List.mem_cons_of_mem _ ha))]
    simp

/-- The full aggregate total equals the filtered transaction total. -/
theorem dailyAgg_sum (ts : List Transaction) :
    ((dailyAgg ts).map (fun e => e.2)).sum
      = ((filteredTransactions ts).map Transaction.qty).sum := by
  unfold dailyAgg
  rw [List.map_map]
  show (List.map (fun k => aggValue ts k) (aggKeys ts)).sum = _
  unfold aggValue aggKeys
  exact sum_over_groups (fun t => (t.date, t.item)) Transaction.qty
    ((filteredTransactions ts).map (fun t => (t.date, t.item))).dedup
    (List.nodup_dedup _) (filteredTransactions ts)
    (fun a ha => List.mem_dedup.mpr (List.mem_map_of_mem _ ha))

/-- The combined filter predicate of the Aggregator. -/
def passesFiltersB (t : Transaction) : Bool :=
  targetCategories.contains t.category && (dayNameOf t.date != "Monday")
    && !isSeasonalItem (normalizeItem t.item)

theorem filteredTransactions_map_qty (ts : List Transaction) :
    (filteredTransactions ts).map Transaction.qty
      = (ts.filter passesFiltersB).map Transaction.qty := by
  unfold filteredTransactions
  rw [List.filter_map, List.map_map]
  have hq : Transaction.qty ∘ normalizeTx = Transaction.qty := funext (fun t => rfl)
  rw [hq, List.filter_filter, List.filter_filter]
  congr 1
  apply List.filter_congr
  intro t _
  simp only [passesFiltersB, Function.comp, normalizeTx]
  cases h1 : targetCategories.contains t.category <;>
    cases h2 : (dayNameOf t.date != "Monday") <;>
      cases h3 : isSeasonalItem (normalizeItem t.item) <;> rfl

/-- C4: the sum of quantities over the Daily Aggregate equals the sum of
quantities over exactly those input transactions whose category is in the
four-value allow-list, whose weekday is not Monday, and whose normalized
name contains no seasonal/special substring; nothing else is dropped. -/
theorem claim_C4_aggregate_sum_preserved :
    ∀ ts : List Transaction,
      ((dailyAgg ts).map (fun e => e.2)).sum
        = ((ts.filter (fun t => targetCategories.contains t.category &&
            (dayNameOf t.date != "Monday") &&
            !isSeasonalItem (normalizeItem t.item))).map Transaction.qty).sum := by
  intro ts
  rw [dailyAgg_sum, filteredTransactions_map_qty]
  rfl

/-! ### C2: the pivot round trip

The claim fails as stated: the source drops the hard-coded 1/14 date
column from the final matrix, so an aggregate entry dated January 14
never appears as a cell.
-/

/-- One allowed transaction dated January 14, 2025 (a Tuesday, so it
survives every Aggregator filter). -/
def jan14Sample : List Transaction :=
  [⟨⟨2025, 1, 14⟩, "Berry Tart", "Pastries", 5⟩]

/-- C2 counterexample: the Daily Aggregate of `jan14Sample` holds one
entry, but the final Quantity Matrix has no date column at all (the 1/14
column is excluded), so that aggregate entry appears as no cell. -/
theorem claim_C2_counterexample :
    dailyAgg jan14Sample = [((⟨2025, 1, 14⟩, "Berry Tart"), 5)] ∧
    pivotItems jan14Sample = ["Berry Tart"] ∧
    pivotDates jan14Sample = [] ∧
    pivotColumns jan14Sample = [] := by
  refine ⟨by decide, by decide, by decide, by decide⟩

/-- C2 (amended): for every (item, date) pair of the Daily Aggregate whose
date is not the excluded 1/14 bad-data date, the matrix has that row,
that date column, and the cell equals the aggregate quantity; every other
(item, date) cell of the matrix is exactly 0; rows and columns are free of
duplicates, so each such aggregate entry appears exactly once as a cell. -/
theorem claim_C2_amended_pivot_roundtrip :
    ∀ ts : List Transaction,
      (∀ d i q, ((d, i), q) ∈ dailyAgg ts → ¬(d.month = 1 ∧ d.day = 14) →
        i ∈ pivotItems ts ∧ d ∈ pivotDates ts ∧ formatLabel d ∈ pivotColumns ts ∧
          pivotCell ts i d = q) ∧
      (∀ i d, i ∈ pivotItems ts → d ∈ pivotDates ts →
        (∀ q, ((d, i), q) ∉ dailyAgg ts) → pivotCell ts i d = 0) ∧
      (pivotItems ts).Nodup ∧ (pivotDates ts).Nodup := by
  intro ts
  have hnodupDates : (pivotDates ts).Nodup :=
    ((List.perm_insertionSort colKeyLe (keptDates ts)).nodup_iff).mpr
      ((List.nodup_dedup _).filter _)
  refine ⟨?_, ?_, List.nodup_dedup _, hnodupDates⟩
  · intro d i q hmem hnotex
    obtain ⟨k, hk, hkeq⟩ := List.mem_map.mp hmem
    have hk1 : k = (d, i) := congrArg Prod.fst hkeq
    have hk2 : aggValue ts k = q := congrArg Prod.snd hkeq
    subst hk1
    have hd : d ∈ pivotDates ts := by
      rw [pivotDates, List.mem_insertionSort, keptDates, List.mem_filter]
      refine ⟨List.mem_dedup.mpr (List.mem_map.mpr ⟨((d, i), q), hmem, rfl⟩), ?_⟩
      have h' : ¬d.month = 1 ∨ ¬d.day = 14 := by tauto
      simpa using h'
    refine ⟨List.mem_dedup.mpr (List.mem_map.mpr ⟨((d, i), q), hmem, rfl⟩), hd,
      List.mem_map_of_mem formatLabel hd, ?_⟩
    rw [pivotCell, dailyAgg, lookup_map_keys (aggValue ts) (aggKeys ts) (d, i) hk]
    simpa using hk2
  · intro i d _ _ hnone
    have hk : (d, i) ∉ aggKeys ts := by
      intro hkmem
      exact hnone (aggValue ts (d, i))
        (List.mem_map.mpr ⟨(d, i), hkmem, rfl⟩)
    rw [pivotCell, dailyAgg, lookup_map_keys_none (aggValue ts) (aggKeys ts) (d, i) hk]
    rfl

/-- Witness for C2 (amended): the amended round trip applied to a concrete
aggregate entry away from the excluded date. -/
theorem claim_C2_witness :
    pivotCell [⟨⟨2025, 1, 15⟩, "Berry Tart", "Pastries", 3⟩] "Berry Tart" ⟨2025, 1, 15⟩
      = 3 :=
  ((claim_C2_amended_pivot_roundtrip [⟨⟨2025, 1, 15⟩, "Berry Tart", "Pastries", 3⟩]).1
      ⟨2025, 1, 15⟩ "Berry Tart" 3 (by decide) (by decide)).2.2.2

/-! ### C5: column ordering and labels -/

/-- Membership in the final date columns implies: the date comes from an
input transaction, its weekday is not Monday, and it is not the excluded
1/14 date. -/
theorem mem_pivotDates (ts : List Transaction) (d : Date) (hd : d ∈ pivotDates ts) :
    (∃ t ∈ ts, t.date = d) ∧ dayNameOf d ≠ "Monday" ∧ ¬(d.month = 1 ∧ d.day = 14) := by
  rw [pivotDates, List.mem_insertionSort, keptDates, List.mem_filter] at hd
  obtain ⟨hd1, hd2⟩ := hd
  have h14 : ¬(d.month = 1 ∧ d.day = 14) := by
    intro hc
    simp [hc.1, hc.2] at hd2
  rw [aggDates] at hd1
  obtain ⟨e, he, hed⟩ := List.mem_map.mp (List.mem_dedup.mp hd1)
  obtain ⟨k, hk, hke⟩ := List.mem_map.mp he
  rw [aggKeys] at hk
  obtain ⟨t, ht, htk⟩ := List.mem_map.mp (List.mem_dedup.mp hk)
  rw [filteredTransactions] at ht
  obtain ⟨ht3, hseas⟩ := List.mem_filter.mp ht
  obtain ⟨t2, ht2, ht2t⟩ := List.mem_map.mp ht3
  obtain ⟨ht2b, hmon⟩ := List.mem_filter.mp ht2
  have htd : t.date = d := by
    have h1 : k.1 = d := by rw [← hke] at hed; exact hed
    have h2 : t.date = k.1 := by rw [← htk]
    rw [h2, h1]
  have ht2d : t2.date = d := by
    rw [← ht2t] at htd
    exact htd
  constructor
  · exact ⟨t2, List.mem_of_mem_filter ht2b, ht2d⟩
  · refine ⟨?_, h14⟩
    rw [← ht2d]
    simpa using hmon

/-- C5: the date columns of the Quantity Matrix are grouped by weekday in
the fixed order Tuesday..Sunday with strictly ascending calendar dates
inside each group, Monday never appears, and every column label has the
format "month/day - WeekdayName" with no leading zeros on month or day. -/
theorem claim_C5_column_order_and_labels (ts : List Transaction)
    (hv : ∀ t ∈ ts, 1 ≤ t.date.month ∧ t.date.month ≤ 12 ∧
        1 ≤ t.date.day ∧ t.date.day ≤ 31) :
    (pivotDates ts).Pairwise (fun a b =>
        weekdayOrder (dayNameOf a) < weekdayOrder (dayNameOf b) ∨
          (weekdayOrder (dayNameOf a) = weekdayOrder (dayNameOf b) ∧
            (a.year < b.year ∨ (a.year = b.year ∧
              (a.month < b.month ∨ (a.month = b.month ∧ a.day < b.day)))))) ∧
    (∀ d ∈ pivotDates ts, dayNameOf d ≠ "Monday") ∧
    pivotColumns ts = (pivotDates ts).map
      (fun d => Nat.repr d.month ++ "/" ++ Nat.repr d.day ++ " - " ++ dayNameOf d) ∧
    (∀ d ∈ pivotDates ts,
      (Nat.repr d.month).data.head? ≠ some '0' ∧
        (Nat.repr d.day).data.head? ≠ some '0') := by
  have hnodup : (pivotDates ts).Nodup :=
    ((List.perm_insertionSort colKeyLe (keptDates ts)).nodup_iff).mpr
      ((List.nodup_dedup _).filter _)
  have hsort : (pivotDates ts).Pairwise colKeyLe :=
    List.sorted_insertionSort colKeyLe (keptDates ts)
  refine ⟨?_, ?_, rfl, ?_⟩
  · refine (hsort.and hnodup).imp ?_
    intro a b hab
    obtain ⟨h1, hne⟩ := hab
    unfold colKeyLe at h1
    obtain ⟨ay, am, ad⟩ := a
    obtain ⟨b1, bm, bd⟩ := b
    simp only [ne_eq, Date.mk.injEq] at hne
    dsimp only at h1 ⊢
    omega
  · intro d hd
    exact (mem_pivotDates ts d hd).2.1
  · intro d hd
    obtain ⟨⟨t, ht, htd⟩, _, _⟩ := mem_pivotDates ts d hd
    obtain ⟨h1, h2, h3, h4⟩ := hv t ht
    rw [htd] at h1 h2 h3 h4
    have hrep : ∀ n, n < 32 → 1 ≤ n → (Nat.repr n).data.head? ≠ some '0' := by decide
    exact ⟨hrep d.month (by omega) h1, hrep d.day (by omega) h3⟩

/-- Witness for C5: the ordering theorem applied to a concrete single
transaction on a Wednesday. -/
theorem claim_C5_witness :
    pivotColumns [⟨⟨2025, 1, 15⟩, "Berry Tart", "Pastries", 3⟩]
        = (pivotDates [⟨⟨2025, 1, 15⟩, "Berry Tart", "Pastries", 3⟩]).map
            (fun d => Nat.repr d.month ++ "/" ++ Nat.repr d.day ++ " - " ++ dayNameOf d) ∧
      dayNameOf ⟨2025, 1, 15⟩ ≠ "Monday" :=
  ⟨(claim_C5_column_order_and_labels
        [⟨⟨2025, 1, 15⟩, "Berry Tart", "Pastries", 3⟩] (by decide)).2.2.1,
    ((claim_C5_column_order_and_labels
        [⟨⟨2025, 1, 15⟩, "Berry Tart", "Pastries", 3⟩] (by decide)).2.1
      ⟨2025, 1, 15⟩ (by decide))⟩

/-! ### C8: output artifact filenames

Embedded from `create_grid_plots` (visualization_reports.py, lines
247-250): `re.sub(r'[^\w\s-]', '', item_name).replace(' ', '_')` with the
suffix `_grid_plot.png`.  The regex class `[^\w\s-]` removes characters
that are not word characters (alphanumerics or underscore), not
whitespace, and not hyphens (ASCII model of the classes).
-/

def pyWordChar (c : Char) : Bool := c.isAlphanum || c == '_'

def pyWhitespaceChar (c : Char) : Bool :=
  c == ' ' || c == '\t' || c == '\n' || c == '\r' || c == '\x0b' || c == '\x0c'

/-- A character kept by `re.sub(r'[^\w\s-]', '', ...)`. -/
def keepChar (c : Char) : Bool := pyWordChar c || pyWhitespaceChar c || c == '-'

/-- The sanitized plot filename of `create_grid_plots`. -/
def safeFilename (item : String) : String :=
  String.mk ((item.data.filter keepChar).map (fun c => if c == ' ' then '_' else c))
    ++ "_grid_plot.png"

/-- The amended claim's sanitization as one character scan: delete every
character that is not alphanumeric, not an underscore, not whitespace,
and not a hyphen; replace each space with an underscore. -/
def scrubChars : List Char → List Char
  | [] => []
  | c :: cs =>
    if c.isAlphanum || c == '_' || pyWhitespaceChar c || c == '-' then
      (if c == ' ' then '_' else c) :: scrubChars cs
    else scrubChars cs

def amendedFilename (item : String) : String :=
  String.mk (scrubChars item.data) ++ "_grid_plot.png"

/-- C8 counterexample: at the item name "A-B" the code keeps the hyphen
and produces "A-B_grid_plot.png", while deleting every non-alphanumeric
character (keeping spaces for the underscore replacement) would produce
"AB_grid_plot.png". -/
theorem claim_C8_counterexample :
    safeFilename "A-B" = "A-B_grid_plot.png" ∧
    "A-B_grid_plot.png" ≠ "AB_grid_plot.png" ∧
    (("A-B".data.filter (fun c => c.isAlphanum || c == ' ')).map
        (fun c => if c == ' ' then '_' else c)) = "AB".data := by
  refine ⟨by decide, by decide, by decide⟩

theorem scrubChars_eq_filter_map (l : List Char) :
    (l.filter keepChar).map (fun c => if c == ' ' then '_' else c) = scrubChars l := by
  induction l with
  | nil => rfl
  | cons c cs ih =>
    rw [List.filter_cons, scrubChars]
    by_cases hc : keepChar c = true
    · have hc2 : (c.isAlphanum || c == '_' || pyWhitespaceChar c || c == '-') = true := hc
      rw [if_pos hc, if_pos hc2, List.map_cons, ih]
    · have hc2 : ¬((c.isAlphanum || c == '_' || pyWhitespaceChar c || c == '-') = true) := hc
      rw [if_neg hc, if_neg hc2, ih]

/-- C8 (amended): for every item name, the artifact filename is derived by
deleting every character that is not alphanumeric, not an underscore, not
whitespace and not a hyphen, then replacing spaces with underscores, and
appending "_grid_plot.png". -/
theorem claim_C8_amended_filename :
    ∀ item : String, safeFilename item = amendedFilename item := by
  intro item
  rw [safeFilename, amendedFilename, scrubChars_eq_filter_map]

end Shechill
